import Mathlib

/-!
Verification of the zksync Solidity compiler core against its design
specification.  Each section shallowly embeds one component of the Rust
sources and proves the specified properties about it.
-/

/-!
## Symbolic stack duplicate and swap

Embedded from src/compiler_solidity/src/evmla/assembly/instruction/stack.rs
(functions dup and swap) and the result-store tail of Element.into_llvm in
src/compiler_solidity/src/evmla/ethereal_ir/function/block/element/mod.rs.
A stack slot is modelled as the field value currently stored in the slot
together with the optional original tag; build_load and build_store on the
slot pointer become reads and writes of the value component.
-/

namespace EvmlaStack

/-- One slot of the lowered operand stack: the runtime value stored at the
slot pointer and the optional original tag metadata. -/
structure Argument where
  value : Nat
  original : Option String
deriving DecidableEq

/-- Function dup of stack.rs: loads the element at index
height - offset - 1, and hands back its value together with its original
tag (the out-parameter original).  Out-of-range indexing, which panics in
the source, is modelled as none. -/
def dup (stack : List Argument) (offset height : Nat) : Option Argument :=
  stack[height - offset - 1]?

/-- Function swap of stack.rs: exchanges the stored values and the original
tags of the elements at indices height - 1 and height - offset - 1. -/
def swap (stack : List Argument) (offset height : Nat) :
    Option (List Argument) :=
  match stack[height - 1]?, stack[height - offset - 1]? with
  | some top, some deep =>
      some ((stack.set (height - 1) deep).set (height - offset - 1) top)
  | _, _ => none

/-- The common result-store tail of Element.into_llvm: the produced value and
its original tag are stored into the slot at index
length - inputSize - 1. -/
def storeResult (stack : List Argument) (inputSize : Nat) (value : Nat)
    (original : Option String) : List Argument :=
  stack.set (stack.length - inputSize - 1) ⟨value, original⟩

/-- The full lowering of a DUPn instruction: dup is called with the length of
the symbolic stack of the element as the height, and the result is stored by
the common tail.  The input arity of DUPn is 0, so the output slot is the top
slot at index length - 1 (the symbolic stack of the element already contains
the output slot). -/
def dupOp (stack : List Argument) (offset : Nat) : Option (List Argument) :=
  match dup stack offset stack.length with
  | some arg => some (storeResult stack 0 arg.value arg.original)
  | none => none

/-- C8: for every symbolic stack and valid depth, duplicate copies the
element at that depth (value and original tag) to the top slot, swap
exchanges the values and the original tags of the top element and the
element at that depth, neither operation changes the stack height, and
applying swap with depth 1 twice restores the original element
assignment. -/
theorem dup_swap_stack_properties (stack : List Argument) (offset : Nat)
    (h1 : 1 ≤ offset) (h2 : offset + 1 ≤ stack.length) :
    (∃ s, dupOp stack offset = some s ∧
        s.length = stack.length ∧
        s[stack.length - 1]? = stack[stack.length - offset - 1]? ∧
        ∀ i, i < stack.length - 1 → s[i]? = stack[i]?) ∧
    (∃ s, swap stack offset stack.length = some s ∧
        s.length = stack.length ∧
        s[stack.length - 1]? = stack[stack.length - offset - 1]? ∧
        s[stack.length - offset - 1]? = stack[stack.length - 1]? ∧
        ∀ i, i < stack.length → i ≠ stack.length - 1 →
          i ≠ stack.length - offset - 1 → s[i]? = stack[i]?) ∧
    ((swap stack 1 stack.length).bind (fun s => swap s 1 stack.length) =
      some stack) := by
  have hn : 2 ≤ stack.length := le_trans (by omega) h2
  have hidx : stack.length - offset - 1 < stack.length := by omega
  have htop : stack.length - 1 < stack.length := by omega
  have hne : stack.length - offset - 1 ≠ stack.length - 1 := by omega
  refine ⟨?_, ?_, ?_⟩
  · refine ⟨stack.set (stack.length - 1) stack[stack.length - offset - 1],
      ?_, ?_, ?_, ?_⟩
    · simp [dupOp, dup, storeResult, List.getElem?_eq_getElem hidx]
    · simp
    · rw [List.getElem?_set_eq_of_lt _ htop, List.getElem?_eq_getElem hidx]
    · intro i hi
      rw [List.getElem?_set_ne (by omega)]
  · refine ⟨(stack.set (stack.length - 1) stack[stack.length - offset - 1]).set
      (stack.length - offset - 1) stack[stack.length - 1], ?_, ?_, ?_, ?_, ?_⟩
    · simp [swap, List.getElem?_eq_getElem hidx, List.getElem?_eq_getElem htop]
    · simp
    · rw [List.getElem?_set_ne hne, List.getElem?_set_eq_of_lt _ htop,
        List.getElem?_eq_getElem hidx]
    · rw [List.getElem?_set_eq_of_lt _ (by simpa using hidx),
        List.getElem?_eq_getElem htop]
    · intro i hi hne1 hne2
      rw [List.getElem?_set_ne (Ne.symm hne2), List.getElem?_set_ne (Ne.symm hne1)]
  · have h12 : stack.length - 1 - 1 = stack.length - 2 := by omega
    have hidx2 : stack.length - 2 < stack.length := by omega
    have hne2 : stack.length - 2 ≠ stack.length - 1 := by omega
    have step1 : swap stack 1 stack.length =
        some ((stack.set (stack.length - 1) stack[stack.length - 2]).set
          (stack.length - 2) stack[stack.length - 1]) := by
      simp [swap, h12, List.getElem?_eq_getElem htop, List.getElem?_eq_getElem hidx2]
    rw [step1]
    rw [Option.some_bind]
    set s1 := (stack.set (stack.length - 1) stack[stack.length - 2]).set
      (stack.length - 2) stack[stack.length - 1] with hs1
    have hlen1 : s1.length = stack.length := by simp [hs1]
    have hget_top : s1[stack.length - 1]? = some stack[stack.length - 2] := by
      rw [hs1, List.getElem?_set_ne hne2, List.getElem?_set_eq_of_lt _ htop]
    have hget_deep : s1[stack.length - 2]? = some stack[stack.length - 1] := by
      rw [hs1, List.getElem?_set_eq_of_lt _ (by simpa [hs1] using hidx2)]
    have step2 : swap s1 1 stack.length =
        some ((s1.set (stack.length - 1) stack[stack.length - 1]).set
          (stack.length - 2) stack[stack.length - 2]) := by
      simp [swap, h12, hget_top, hget_deep]
    rw [step2]
    congr 1
    apply List.ext_getElem?
    intro i
    by_cases hi : i < stack.length
    · by_cases e1 : i = stack.length - 1
      · subst e1
        rw [List.getElem?_set_ne hne2,
          List.getElem?_set_eq_of_lt _ (by simp [hs1]; omega),
          List.getElem?_eq_getElem htop]
      · by_cases e2 : i = stack.length - 2
        · subst e2
          rw [List.getElem?_set_eq_of_lt _ (by simp [hs1]; omega),
            List.getElem?_eq_getElem hidx2]
        · rw [List.getElem?_set_ne (Ne.symm e2), List.getElem?_set_ne (Ne.symm e1),
            hs1, List.getElem?_set_ne (Ne.symm e2), List.getElem?_set_ne (Ne.symm e1)]
    · have hle : stack.length ≤ i := by omega
      rw [List.getElem?_eq_none hle]
      exact List.getElem?_eq_none (by simp [hs1]; omega)

/-- Witness for dup_swap_stack_properties at a concrete three-element stack
with depth 2. -/
theorem dup_swap_stack_properties_witness :
    (1 ≤ 2 ∧ 2 + 1 ≤ ([⟨10, none⟩, ⟨20, some "tag"⟩, ⟨30, none⟩] :
        List Argument).length) ∧
    ((∃ s, dupOp [⟨10, none⟩, ⟨20, some "tag"⟩, ⟨30, none⟩] 2 = some s ∧
        s.length = ([⟨10, none⟩, ⟨20, some "tag"⟩, ⟨30, none⟩] :
          List Argument).length ∧
        s[([⟨10, none⟩, ⟨20, some "tag"⟩, ⟨30, none⟩] :
            List Argument).length - 1]? =
          ([⟨10, none⟩, ⟨20, some "tag"⟩, ⟨30, none⟩] :
            List Argument)[([⟨10, none⟩, ⟨20, some "tag"⟩, ⟨30, none⟩] :
            List Argument).length - 2 - 1]? ∧
        ∀ i, i < ([⟨10, none⟩, ⟨20, some "tag"⟩, ⟨30, none⟩] :
            List Argument).length - 1 →
          s[i]? = ([⟨10, none⟩, ⟨20, some "tag"⟩, ⟨30, none⟩] :
            List Argument)[i]?) ∧
      (∃ s, swap [⟨10, none⟩, ⟨20, some "tag"⟩, ⟨30, none⟩] 2
          ([⟨10, none⟩, ⟨20, some "tag"⟩, ⟨30, none⟩] :
            List Argument).length = some s ∧
        s.length = ([⟨10, none⟩, ⟨20, some "tag"⟩, ⟨30, none⟩] :
          List Argument).length ∧
        s[([⟨10, none⟩, ⟨20, some "tag"⟩, ⟨30, none⟩] :
            List Argument).length - 1]? =
          ([⟨10, none⟩, ⟨20, some "tag"⟩, ⟨30, none⟩] :
            List Argument)[([⟨10, none⟩, ⟨20, some "tag"⟩, ⟨30, none⟩] :
            List Argument).length - 2 - 1]? ∧
        s[([⟨10, none⟩, ⟨20, some "tag"⟩, ⟨30, none⟩] :
            List Argument).length - 2 - 1]? =
          ([⟨10, none⟩, ⟨20, some "tag"⟩, ⟨30, none⟩] :
            List Argument)[([⟨10, none⟩, ⟨20, some "tag"⟩, ⟨30, none⟩] :
            List Argument).length - 1]? ∧
        ∀ i, i < ([⟨10, none⟩, ⟨20, some "tag"⟩, ⟨30, none⟩] :
            List Argument).length →
          i ≠ ([⟨10, none⟩, ⟨20, some "tag"⟩, ⟨30, none⟩] :
            List Argument).length - 1 →
          i ≠ ([⟨10, none⟩, ⟨20, some "tag"⟩, ⟨30, none⟩] :
            List Argument).length - 2 - 1 →
          s[i]? = ([⟨10, none⟩, ⟨20, some "tag"⟩, ⟨30, none⟩] :
            List Argument)[i]?) ∧
      ((swap [⟨10, none⟩, ⟨20, some "tag"⟩, ⟨30, none⟩] 1
          ([⟨10, none⟩, ⟨20, some "tag"⟩, ⟨30, none⟩] :
            List Argument).length).bind
        (fun s => swap s 1 ([⟨10, none⟩, ⟨20, some "tag"⟩, ⟨30, none⟩] :
            List Argument).length) =
        some [⟨10, none⟩, ⟨20, some "tag"⟩, ⟨30, none⟩])) :=
  ⟨by decide, dup_swap_stack_properties
    [⟨10, none⟩, ⟨20, some "tag"⟩, ⟨30, none⟩] 2 (by decide) (by decide)⟩

end EvmlaStack

/-!
## Identifier path resolution

Embedded from src/compiler_solidity/src/project/mod.rs, function
resolve_path of the Dependency implementation.  Identifier strings are
modelled as lists of characters; the identifier-to-path table of the project
is modelled as an association list with unique keys, matching a BTreeMap.
-/

namespace ResolvePath

/-- The character list spelling out the suffix "_deployed". -/
def deployedSuffix : List Char := "_deployed".data

/-- Rust str::strip_suffix followed by unwrap_or on the original string:
removes one trailing occurrence of the suffix when present, otherwise
returns the input unchanged. -/
def stripDeployed (identifier : List Char) : List Char :=
  if deployedSuffix.isSuffixOf identifier then
    identifier.take (identifier.length - deployedSuffix.length)
  else
    identifier

/-- BTreeMap::get on the identifier-to-path table. -/
def lookupIdentifier (table : List (List Char × List Char))
    (key : List Char) : Option (List Char) :=
  (table.find? (fun entry => entry.1 = key)).map Prod.snd

/-- Function resolve_path: strips at most one trailing "_deployed" suffix,
looks the result up in identifier_paths, and on a miss produces an error
carrying the identifier it was given. -/
def resolve_path (table : List (List Char × List Char))
    (identifier : List Char) : Except (List Char) (List Char) :=
  match lookupIdentifier table (stripDeployed identifier) with
  | some path => Except.ok path
  | none => Except.error identifier

theorem stripDeployed_append (X : List Char) :
    stripDeployed (X ++ deployedSuffix) = X := by
  unfold stripDeployed
  rw [if_pos]
  · simp
  · exact List.isSuffixOf_iff_suffix.mpr ⟨X, rfl⟩

/-- C10 counterexample: for the registered identifier "A_deployed" (which
itself ends in the suffix), resolve_path of the identifier and resolve_path
of the identifier with "_deployed" appended do not return the same path:
the former strips the suffix, misses the table and errors, while the latter
finds the registered identifier. -/
theorem resolve_path_deployed_identifier_mismatch :
    resolve_path [("A_deployed".data, "file.sol:A".data)] "A_deployed".data =
      Except.error "A_deployed".data ∧
    resolve_path [("A_deployed".data, "file.sol:A".data)]
        ("A_deployed".data ++ deployedSuffix) =
      Except.ok "file.sol:A".data ∧
    resolve_path [("A_deployed".data, "file.sol:A".data)] "A_deployed".data ≠
      resolve_path [("A_deployed".data, "file.sol:A".data)]
        ("A_deployed".data ++ deployedSuffix) := by
  have h1 : resolve_path [("A_deployed".data, "file.sol:A".data)]
      "A_deployed".data = Except.error "A_deployed".data := by rfl
  have h2 : resolve_path [("A_deployed".data, "file.sol:A".data)]
      ("A_deployed".data ++ deployedSuffix) = Except.ok "file.sol:A".data := by
    rfl
  refine ⟨h1, h2, ?_⟩
  rw [h1, h2]
  intro h
  exact Except.noConfusion h

/-- C10 amended: resolve_path strips at most one trailing "_deployed"
suffix before looking the identifier up; for any registered identifier X,
resolve_path of X with "_deployed" appended returns the registered path,
and resolve_path of X itself returns the same path provided X does not
already end in "_deployed"; when the stripped identifier is absent from the
table, resolve_path returns an error naming the unstripped identifier. -/
theorem resolve_path_amended (table : List (List Char × List Char))
    (X p : List Char) (hfind : lookupIdentifier table X = some p) :
    resolve_path table (X ++ deployedSuffix) = Except.ok p ∧
    (¬ deployedSuffix.isSuffixOf X → resolve_path table X = Except.ok p) ∧
    (∀ Y, lookupIdentifier table (stripDeployed Y) = none →
      resolve_path table Y = Except.error Y) := by
  refine ⟨?_, ?_, ?_⟩
  · simp [resolve_path, stripDeployed_append, hfind]
  · intro hnot
    have : stripDeployed X = X := by
      unfold stripDeployed
      rw [if_neg (by simpa using hnot)]
    simp [resolve_path, this, hfind]
  · intro Y hmiss
    simp [resolve_path, hmiss]

/-- Witness for resolve_path_amended at a concrete one-entry table. -/
theorem resolve_path_amended_witness :
    lookupIdentifier [("A".data, "file.sol:A".data)] "A".data =
      some "file.sol:A".data ∧
    (resolve_path [("A".data, "file.sol:A".data)]
        ("A".data ++ deployedSuffix) = Except.ok "file.sol:A".data ∧
      (¬ deployedSuffix.isSuffixOf "A".data →
        resolve_path [("A".data, "file.sol:A".data)] "A".data =
          Except.ok "file.sol:A".data) ∧
      (∀ Y, lookupIdentifier [("A".data, "file.sol:A".data)]
          (stripDeployed Y) = none →
        resolve_path [("A".data, "file.sol:A".data)] Y = Except.error Y)) :=
  ⟨by rfl, resolve_path_amended [("A".data, "file.sol:A".data)]
    "A".data "file.sol:A".data (by rfl)⟩

end ResolvePath

/-!
## Contract build scheduler

Embedded from src/compiler_solidity/src/project/mod.rs: Project::compile
(the per-contract state machine over the shared state table) and the
aggregation loop of Project::compile_all.  The state table, a BTreeMap
behind an RwLock, is modelled as a function from contract paths to optional
states; Project::compile is modelled as the sequence of lock, table and
condition-variable operations it performs (its event trace) together with
the table it leaves behind.  The actual per-contract compilation
(Contract::compile) is abstracted into an oracle that either yields a build
artifact or an error message, exactly the two outcomes the scheduler
distinguishes.  The ContractState enum is reconstructed from its four
variants matched in project/mod.rs; the waiter handle, an
Arc of a Mutex-Condvar pair, is identified by a number.
-/

namespace Scheduler

/-- A compiled LLVM artifact abstracted to its content hash. -/
structure LlvmBuild where
  hash : String
deriving DecidableEq

/-- The contract data the scheduler consults: path, identifier and ABI;
the source representation is abstracted away. -/
structure Contract where
  path : String
  identifier : String
  abi : Option String
deriving DecidableEq

/-- ContractBuild::new from build/contract.rs: the per-contract build
artifact stored in the Build state. -/
structure ContractBuild where
  path : String
  identifier : String
  build : LlvmBuild
  abi : Option String
deriving DecidableEq

/-- The per-contract lifecycle state occupying the table slot. -/
inductive ContractState where
  | source (contract : Contract)
  | waiter (handle : Nat)
  | build (artifact : ContractBuild)
  | error (message : String)
deriving DecidableEq

/-- The shared contract-state table. -/
def Table : Type := String → Option ContractState

/-- BTreeMap::insert on the table. -/
def tableInsert (table : Table) (path : String) (st : ContractState) :
    Table :=
  fun q => if q = path then some st else table q

/-- BTreeMap::remove on the table (the removed slot is gone until
reinserted). -/
def tableRemove (table : Table) (path : String) : Table :=
  fun q => if q = path then none else table q

/-- One observable action of Project::compile. -/
inductive Event where
  | lockAcquire
  | lockRelease
  | removeSlot (path : String)
  | insertSlot (path : String) (st : ContractState)
  | compileWork (path : String)
  | notifyAll (handle : Nat)
  | condWait (handle : Nat)
deriving DecidableEq

/-- Project::compile: reads and removes the slot under the table lock,
branches on the state found, and leaves behind the trace of its actions and
the resulting table.  The expect of the initial remove (the slot must
exist) is modelled as none.  In the Source branch the slot is atomically
replaced with a fresh Waiter, the lock is dropped, the contract is compiled
through the oracle, and the terminal state is stored under a reacquired
lock before all waiters are notified. -/
def compile (table : Table) (path : String)
    (oracle : Contract → Except String LlvmBuild) (freshHandle : Nat) :
    Option (List Event × Table) :=
  match table path with
  | none => none
  | some st =>
    let afterRemove : Table := tableRemove table path
    match st with
    | ContractState.source contract =>
        let afterWaiter :=
          tableInsert afterRemove path (ContractState.waiter freshHandle)
        match oracle contract with
        | Except.ok build =>
            let cb : ContractBuild :=
              ⟨path, contract.identifier, build, contract.abi⟩
            some ([Event.lockAcquire, Event.removeSlot path,
                   Event.insertSlot path (ContractState.waiter freshHandle),
                   Event.lockRelease, Event.compileWork path,
                   Event.lockAcquire,
                   Event.insertSlot path (ContractState.build cb),
                   Event.lockRelease, Event.notifyAll freshHandle],
                  tableInsert afterWaiter path (ContractState.build cb))
        | Except.error e =>
            some ([Event.lockAcquire, Event.removeSlot path,
                   Event.insertSlot path (ContractState.waiter freshHandle),
                   Event.lockRelease, Event.compileWork path,
                   Event.lockAcquire,
                   Event.insertSlot path (ContractState.error e),
                   Event.lockRelease, Event.notifyAll freshHandle],
                  tableInsert afterWaiter path (ContractState.error e))
    | ContractState.waiter h =>
        some ([Event.lockAcquire, Event.removeSlot path,
               Event.insertSlot path (ContractState.waiter h),
               Event.lockRelease, Event.condWait h],
              tableInsert afterRemove path (ContractState.waiter h))
    | ContractState.build b =>
        some ([Event.lockAcquire, Event.removeSlot path,
               Event.insertSlot path (ContractState.build b),
               Event.lockRelease],
              tableInsert afterRemove path (ContractState.build b))
    | ContractState.error e =>
        some ([Event.lockAcquire, Event.removeSlot path,
               Event.insertSlot path (ContractState.error e),
               Event.lockRelease],
              tableInsert afterRemove path (ContractState.error e))

/-- The lock depth after one event. -/
def lockDepthStep (d : Nat) : Event → Nat
  | Event.lockAcquire => d + 1
  | Event.lockRelease => d - 1
  | _ => d

/-- True when every compile-work and condition-wait action of the trace
happens while the table lock is not held. -/
def workOutsideLock (d : Nat) : List Event → Bool
  | [] => true
  | e :: rest =>
      (match e with
       | Event.compileWork _ => decide (d = 0)
       | Event.condWait _ => decide (d = 0)
       | _ => true) && workOutsideLock (lockDepthStep d e) rest

/-- The slot contents for the given path after one event. -/
def slotAfter (path : String) (cur : Option ContractState) :
    Event → Option ContractState
  | Event.removeSlot p => if p = path then none else cur
  | Event.insertSlot p st => if p = path then some st else cur
  | _ => cur

/-- True when, at every point of the trace at which the table lock is not
held, the slot of the given path holds a state (one of the four
ContractState variants); the transient emptiness between remove and
reinsert is confined to lock-held critical sections. -/
def slotDefinedWhenUnlocked (path : String) (d : Nat)
    (cur : Option ContractState) : List Event → Bool
  | [] => (decide (d ≠ 0)) || cur.isSome
  | e :: rest =>
      ((decide (d ≠ 0)) || cur.isSome) &&
      slotDefinedWhenUnlocked path (lockDepthStep d e) (slotAfter path cur e)
        rest

/-- The successive states written into the slot of the given path over the
trace. -/
def insertedStates (path : String) (tr : List Event) : List ContractState :=
  tr.filterMap (fun e =>
    match e with
    | Event.insertSlot p st => if p = path then some st else none
    | _ => none)

/-- True of events that store a terminal state into the slot of the given
path.  -/
def terminalInsert (path : String) : Event → Bool
  | Event.insertSlot p st =>
      decide (p = path) &&
      (match st with
       | ContractState.build _ => true
       | ContractState.error _ => true
       | _ => false)
  | _ => false

/-- The terminal state Project::compile stores for a Source slot, as
dictated by the outcome of the contract compilation. -/
def terminalState (path : String) (c : Contract)
    (outcome : Except String LlvmBuild) : ContractState :=
  match outcome with
  | Except.ok b => ContractState.build ⟨path, c.identifier, b, c.abi⟩
  | Except.error e => ContractState.error e

/-- C2: on a slot in state Source, compile swaps in a Waiter under the
lock, compiles outside the lock, stores Build on success and Error on
failure, and notifies all waiters on the handle only after the terminal
store; the slot passes exactly through the states Waiter then
Build-or-Error, and whenever the lock is not held the slot holds one of the
four ContractState variants. -/
theorem compile_source_transitions (table : Table) (path : String)
    (oracle : Contract → Except String LlvmBuild) (freshHandle : Nat)
    (c : Contract) (hslot : table path = some (ContractState.source c)) :
    ∃ tr t', compile table path oracle freshHandle = some (tr, t') ∧
      workOutsideLock 0 tr = true ∧
      slotDefinedWhenUnlocked path 0 (some (ContractState.source c)) tr =
        true ∧
      insertedStates path tr =
        [ContractState.waiter freshHandle,
         terminalState path c (oracle c)] ∧
      t' path = some (terminalState path c (oracle c)) ∧
      (∀ e ∈ tr.takeWhile (fun e => ! terminalInsert path e),
        e ≠ Event.notifyAll freshHandle) ∧
      Event.notifyAll freshHandle ∈
        tr.dropWhile (fun e => ! terminalInsert path e) := by
  rcases horacle : oracle c with e | b
  · refine ⟨[Event.lockAcquire, Event.removeSlot path,
        Event.insertSlot path (ContractState.waiter freshHandle),
        Event.lockRelease, Event.compileWork path, Event.lockAcquire,
        Event.insertSlot path (ContractState.error e),
        Event.lockRelease, Event.notifyAll freshHandle],
      tableInsert (tableInsert (tableRemove table path) path
        (ContractState.waiter freshHandle)) path (ContractState.error e),
      ?_, ?_, ?_, ?_, ?_, ?_, ?_⟩
    · simp only [compile, hslot, horacle]
    · simp [workOutsideLock, lockDepthStep]
    · simp [slotDefinedWhenUnlocked, slotAfter, lockDepthStep]
    · simp [insertedStates, terminalState, horacle]
    · simp [tableInsert, terminalState, horacle]
    · intro ev hev
      simp only [terminalInsert, List.takeWhile] at hev
      simp at hev
      rcases hev with h | h | h | h | h | h <;> simp [h]
    · simp [terminalInsert, List.dropWhile]
  · refine ⟨[Event.lockAcquire, Event.removeSlot path,
        Event.insertSlot path (ContractState.waiter freshHandle),
        Event.lockRelease, Event.compileWork path, Event.lockAcquire,
        Event.insertSlot path (ContractState.build
          ⟨path, c.identifier, b, c.abi⟩),
        Event.lockRelease, Event.notifyAll freshHandle],
      tableInsert (tableInsert (tableRemove table path) path
        (ContractState.waiter freshHandle)) path
        (ContractState.build ⟨path, c.identifier, b, c.abi⟩),
      ?_, ?_, ?_, ?_, ?_, ?_, ?_⟩
    · simp only [compile, hslot, horacle]
    · simp [workOutsideLock, lockDepthStep]
    · simp [slotDefinedWhenUnlocked, slotAfter, lockDepthStep]
    · simp [insertedStates, terminalState, horacle]
    · simp [tableInsert, terminalState, horacle]
    · intro ev hev
      simp only [terminalInsert, List.takeWhile] at hev
      simp at hev
      rcases hev with h | h | h | h | h | h <;> simp [h]
    · simp [terminalInsert, List.dropWhile]

/-- A sample contract used to instantiate the scheduler theorems. -/
def sampleContract : Contract := ⟨"A", "A", none⟩

/-- A one-slot table holding the sample contract as Source. -/
def sampleTable : Table :=
  fun q => if q = "A" then some (ContractState.source sampleContract)
           else none

/-- A compilation oracle that always succeeds with a fixed artifact. -/
def sampleOracle : Contract → Except String LlvmBuild :=
  fun _ => Except.ok ⟨"0x01"⟩

/-- Witness for compile_source_transitions on the one-slot sample table. -/
theorem compile_source_transitions_witness :
    sampleTable "A" = some (ContractState.source sampleContract) ∧
    (∃ tr t', compile sampleTable "A" sampleOracle 7 = some (tr, t') ∧
      workOutsideLock 0 tr = true ∧
      slotDefinedWhenUnlocked "A" 0
        (some (ContractState.source sampleContract)) tr = true ∧
      insertedStates "A" tr =
        [ContractState.waiter 7,
         terminalState "A" sampleContract (sampleOracle sampleContract)] ∧
      t' "A" = some (terminalState "A" sampleContract
        (sampleOracle sampleContract)) ∧
      (∀ e ∈ tr.takeWhile (fun e => ! terminalInsert "A" e),
        e ≠ Event.notifyAll 7) ∧
      Event.notifyAll 7 ∈ tr.dropWhile (fun e => ! terminalInsert "A" e)) :=
  ⟨rfl, compile_source_transitions sampleTable "A" sampleOracle 7
    sampleContract rfl⟩

/-- C5: on a slot already in a terminal state, compile reinserts the very
same state, leaves the whole table unchanged, performs no compilation work
and never blocks on a condition variable. -/
theorem compile_terminal_idempotent (table : Table) (path : String)
    (oracle : Contract → Except String LlvmBuild) (freshHandle : Nat) :
    (∀ b, table path = some (ContractState.build b) →
      ∃ tr t', compile table path oracle freshHandle = some (tr, t') ∧
        t' = table ∧
        t' path = some (ContractState.build b) ∧
        (∀ p, Event.compileWork p ∉ tr) ∧
        (∀ h, Event.condWait h ∉ tr)) ∧
    (∀ e, table path = some (ContractState.error e) →
      ∃ tr t', compile table path oracle freshHandle = some (tr, t') ∧
        t' = table ∧
        t' path = some (ContractState.error e) ∧
        (∀ p, Event.compileWork p ∉ tr) ∧
        (∀ h, Event.condWait h ∉ tr)) := by
  constructor
  · intro b hslot
    refine ⟨[Event.lockAcquire, Event.removeSlot path,
        Event.insertSlot path (ContractState.build b), Event.lockRelease],
      tableInsert (tableRemove table path) path (ContractState.build b),
      ?_, ?_, ?_, ?_, ?_⟩
    · simp only [compile, hslot]
    · funext q
      by_cases hq : q = path
      · subst hq
        simp [tableInsert, hslot]
      · simp [tableInsert, tableRemove, hq]
    · simp [tableInsert]
    · intro p
      simp
    · intro h
      simp
  · intro e hslot
    refine ⟨[Event.lockAcquire, Event.removeSlot path,
        Event.insertSlot path (ContractState.error e), Event.lockRelease],
      tableInsert (tableRemove table path) path (ContractState.error e),
      ?_, ?_, ?_, ?_, ?_⟩
    · simp only [compile, hslot]
    · funext q
      by_cases hq : q = path
      · subst hq
        simp [tableInsert, hslot]
      · simp [tableInsert, tableRemove, hq]
    · simp [tableInsert]
    · intro p
      simp
    · intro h
      simp

/-- A one-slot table holding a terminal Build state. -/
def builtTable : Table :=
  fun q => if q = "A" then
    some (ContractState.build ⟨"A", "A", ⟨"0x01"⟩, none⟩)
  else none

/-- Witness for compile_terminal_idempotent on a table already holding a
Build state. -/
theorem compile_terminal_idempotent_witness :
    builtTable "A" = some (ContractState.build ⟨"A", "A", ⟨"0x01"⟩, none⟩) ∧
    (∃ tr t', compile builtTable "A" sampleOracle 7 = some (tr, t') ∧
      t' = builtTable ∧
      t' "A" = some (ContractState.build ⟨"A", "A", ⟨"0x01"⟩, none⟩) ∧
      (∀ p, Event.compileWork p ∉ tr) ∧
      (∀ h, Event.condWait h ∉ tr)) :=
  ⟨rfl, (compile_terminal_idempotent builtTable "A" sampleOracle 7).1
    ⟨"A", "A", ⟨"0x01"⟩, none⟩ rfl⟩

/-- The outcome of the final aggregation loop of Project::compile_all:
either a completed build, the first error, or the panic on a slot that is
neither Build nor Error. -/
inductive AggOutcome where
  | ok (contracts : List (String × ContractBuild))
  | err (message : String)
  | panicked (path : String)
deriving DecidableEq

/-- The aggregation loop of Project::compile_all over the final table
entries in iteration order: Build states are merged into the result, the
first Error short-circuits the whole result, and any other state panics. -/
def aggregate : List (String × ContractState) →
    List (String × ContractBuild) → AggOutcome
  | [], acc => AggOutcome.ok acc
  | (p, ContractState.build cb) :: rest, acc =>
      aggregate rest (acc ++ [(p, cb)])
  | (_, ContractState.error e) :: _, _ => AggOutcome.err e
  | (p, _) :: _, _ => AggOutcome.panicked p

/-- Project::compile_all after the parallel compile phase: aggregation of
the final per-contract states starting from the empty build. -/
def compile_all (entries : List (String × ContractState)) : AggOutcome :=
  aggregate entries []

/-- The first Error message among the entries, in iteration order. -/
def firstError : List (String × ContractState) → Option String
  | [] => none
  | (_, ContractState.error e) :: _ => some e
  | _ :: rest => firstError rest

theorem aggregate_ok_iff (entries : List (String × ContractState))
    (acc : List (String × ContractBuild)) :
    (∃ bs, aggregate entries acc = AggOutcome.ok bs) ↔
      ∀ pr ∈ entries, ∃ cb, pr.2 = ContractState.build cb := by
  induction entries generalizing acc with
  | nil => simp [aggregate]
  | cons hd rest ih =>
      obtain ⟨p, st⟩ := hd
      cases st with
      | source c => simp [aggregate]
      | waiter h => simp [aggregate]
      | build cb => simp [aggregate, ih]
      | error e => simp [aggregate]

theorem aggregate_ok_paths (entries : List (String × ContractState))
    (acc : List (String × ContractBuild)) (bs : List (String × ContractBuild)) :
    aggregate entries acc = AggOutcome.ok bs →
    bs.map Prod.fst = acc.map Prod.fst ++ entries.map Prod.fst := by
  induction entries generalizing acc with
  | nil =>
      intro h
      simp only [aggregate] at h
      cases h
      simp
  | cons hd rest ih =>
      obtain ⟨p, st⟩ := hd
      cases st with
      | source c => intro h; exact absurd h (by simp [aggregate])
      | waiter hh => intro h; exact absurd h (by simp [aggregate])
      | build cb =>
          intro h
          have := ih (acc ++ [(p, cb)]) h
          simpa using this
      | error e => intro h; exact absurd h (by simp [aggregate])

theorem aggregate_first_error (entries : List (String × ContractState))
    (acc : List (String × ContractBuild))
    (hterm : ∀ pr ∈ entries, (∃ cb, pr.2 = ContractState.build cb) ∨
      ∃ e, pr.2 = ContractState.error e)
    (e : String) (hfe : firstError entries = some e) :
    aggregate entries acc = AggOutcome.err e := by
  induction entries generalizing acc with
  | nil => simp [firstError] at hfe
  | cons hd rest ih =>
      obtain ⟨p, st⟩ := hd
      cases st with
      | source c =>
          exact absurd (hterm (p, ContractState.source c) (by simp))
            (by simp)
      | waiter h =>
          exact absurd (hterm (p, ContractState.waiter h) (by simp))
            (by simp)
      | build cb =>
          simp only [firstError] at hfe
          exact ih (acc ++ [(p, cb)])
            (fun pr hpr => hterm pr (List.mem_cons_of_mem _ hpr)) hfe
      | error e' =>
          simp only [firstError] at hfe
          cases hfe
          simp [aggregate]

/-- C4: compile_all aggregation returns a successful build exactly when
every final state is Build, in which case the result holds an entry for
every contract path; when every state is terminal and some state is Error,
the first error in iteration order is returned and no partial build is
emitted. -/
theorem compile_all_aggregation (entries : List (String × ContractState)) :
    ((∃ bs, compile_all entries = AggOutcome.ok bs) ↔
      ∀ pr ∈ entries, ∃ cb, pr.2 = ContractState.build cb) ∧
    (∀ bs, compile_all entries = AggOutcome.ok bs →
      bs.map Prod.fst = entries.map Prod.fst) ∧
    ((∀ pr ∈ entries, (∃ cb, pr.2 = ContractState.build cb) ∨
        ∃ e, pr.2 = ContractState.error e) →
      ∀ e, firstError entries = some e →
        compile_all entries = AggOutcome.err e) := by
  refine ⟨aggregate_ok_iff entries [], ?_, ?_⟩
  · intro bs h
    simpa using aggregate_ok_paths entries [] bs h
  · intro hterm e hfe
    exact aggregate_first_error entries [] hterm e hfe

/-- Witness for compile_all_aggregation on a two-entry table whose second
entry is an Error: the aggregation returns that error and no build. -/
theorem compile_all_aggregation_witness :
    (((∃ bs, compile_all [("a", ContractState.build ⟨"a", "A", ⟨"0x01"⟩, none⟩),
        ("b", ContractState.error "boom")] = AggOutcome.ok bs) ↔
      ∀ pr ∈ [("a", ContractState.build ⟨"a", "A", ⟨"0x01"⟩, none⟩),
        ("b", ContractState.error "boom")],
        ∃ cb, pr.2 = ContractState.build cb) ∧
    (∀ bs, compile_all [("a", ContractState.build ⟨"a", "A", ⟨"0x01"⟩, none⟩),
        ("b", ContractState.error "boom")] = AggOutcome.ok bs →
      bs.map Prod.fst =
        ([("a", ContractState.build ⟨"a", "A", ⟨"0x01"⟩, none⟩),
          ("b", ContractState.error "boom")]).map Prod.fst) ∧
    ((∀ pr ∈ [("a", ContractState.build ⟨"a", "A", ⟨"0x01"⟩, none⟩),
        ("b", ContractState.error "boom")],
        (∃ cb, pr.2 = ContractState.build cb) ∨
          ∃ e, pr.2 = ContractState.error e) →
      ∀ e, firstError [("a", ContractState.build ⟨"a", "A", ⟨"0x01"⟩, none⟩),
        ("b", ContractState.error "boom")] = some e →
        compile_all [("a", ContractState.build ⟨"a", "A", ⟨"0x01"⟩, none⟩),
          ("b", ContractState.error "boom")] = AggOutcome.err e)) ∧
    compile_all [("a", ContractState.build ⟨"a", "A", ⟨"0x01"⟩, none⟩),
      ("b", ContractState.error "boom")] = AggOutcome.err "boom" := by
  refine ⟨compile_all_aggregation _, ?_⟩
  exact (compile_all_aggregation _).2.2
    (by
      intro pr hpr
      rcases List.mem_cons.mp hpr with h | h
      · subst h
        exact Or.inl ⟨_, rfl⟩
      · rcases List.mem_cons.mp h with h2 | h2
        · subst h2
          exact Or.inr ⟨_, rfl⟩
        · simp at h2)
    "boom" rfl

end Scheduler

/-!
## Runtime-before-deploy contract compilation

Embedded from src/src/project/contract/mod.rs (Contract::compile) and
src/src/project/contract/deploy_code/mod.rs together with the variant
structs of deploy_code/yul.rs and deploy_code/evm.rs.  The Yul object and
Ethereal IR payloads are abstracted away; both deploy variants keep their
runtime_code_hash field, initialised to none by the constructors.  The
runtime-code compilation and the LLVM emission of the deploy code are
abstracted into oracles.
-/

namespace ContractPipeline

/-- A compiled LLVM artifact abstracted to its content hash. -/
structure LlvmBuild where
  hash : String
deriving DecidableEq

/-- The Yul deploy code payload: the runtime code hash slot. -/
structure YulDeploy where
  runtime_code_hash : Option String
deriving DecidableEq

/-- The EVM legacy assembly deploy code payload: the runtime code hash
slot. -/
structure EVMDeploy where
  runtime_code_hash : Option String
deriving DecidableEq

/-- The DeployCode enum of deploy_code/mod.rs. -/
inductive DeployCode where
  | yul (inner : YulDeploy)
  | evm (inner : EVMDeploy)
deriving DecidableEq

/-- DeployCode::set_runtime_code_hash: stores the hash into the variant
slot. -/
def DeployCode.set_runtime_code_hash : DeployCode → String → DeployCode
  | DeployCode.yul inner, h =>
      DeployCode.yul { inner with runtime_code_hash := some h }
  | DeployCode.evm inner, h =>
      DeployCode.evm { inner with runtime_code_hash := some h }

/-- The panic message of the expect inside DeployCode::runtime_code_hash. -/
def runtimeCodeHashPanic : String :=
  "The runtime code hash must be set before compiling"

/-- DeployCode::runtime_code_hash: reads the hash slot of either variant;
the expect on an unset slot is a runtime panic, modelled as the error
outcome. -/
def DeployCode.runtime_code_hash : DeployCode → Except String String
  | DeployCode.yul inner =>
      match inner.runtime_code_hash with
      | some h => Except.ok h
      | none => Except.error runtimeCodeHashPanic
  | DeployCode.evm inner =>
      match inner.runtime_code_hash with
      | some h => Except.ok h
      | none => Except.error runtimeCodeHashPanic

/-- DeployCode::compile: the declaration pass and the definition pass both
read the runtime code hash (through DeployCodeFunction::new), then the
backend emission produces the build; the emission is abstracted into the
emit oracle, which receives the hash handed to the definition pass. -/
def DeployCode.compile (dc : DeployCode)
    (emit : String → Except String LlvmBuild) : Except String LlvmBuild := do
  let _hashDeclare ← dc.runtime_code_hash
  let hashDefine ← dc.runtime_code_hash
  emit hashDefine

/-- The runtime code of a contract, with its payload abstracted. -/
inductive RuntimeCode where
  | yul
  | evm
deriving DecidableEq

/-- The contract data of src/src/project/contract/mod.rs. -/
structure Contract where
  path : String
  identifier : String
  deploy_code : DeployCode
  runtime_code : RuntimeCode
deriving DecidableEq

/-- The build artifact pair assembled by Contract::compile. -/
structure ContractBuild where
  path : String
  identifier : String
  deploy_build : LlvmBuild
  runtime_build : LlvmBuild
deriving DecidableEq

/-- Contract::compile: compiles the runtime code, then sets the obtained
hash on the deploy code, then compiles the deploy code. -/
def Contract.compile (c : Contract)
    (runtimeCompile : RuntimeCode → Except String LlvmBuild)
    (emit : String → Except String LlvmBuild) :
    Except String ContractBuild := do
  let runtime_build ← runtimeCompile c.runtime_code
  let dc := c.deploy_code.set_runtime_code_hash runtime_build.hash
  let deploy_build ← dc.compile emit
  pure ⟨c.path, c.identifier, deploy_build, runtime_build⟩

/-- C3 counterexample: reading the runtime code hash before it has been set
is detected at runtime by a panic of the accessor, not at the type or state
level: the accessor of a freshly constructed deploy code produces the
runtime panic outcome. -/
theorem runtime_code_hash_unset_runtime_panic :
    DeployCode.runtime_code_hash (DeployCode.yul ⟨none⟩) =
      Except.error runtimeCodeHashPanic ∧
    ¬ (∀ dc : DeployCode, DeployCode.runtime_code_hash dc ≠
        Except.error runtimeCodeHashPanic) :=
  ⟨rfl, fun h => h (DeployCode.yul ⟨none⟩) rfl⟩

/-- C3 amended: within Contract::compile the runtime code is compiled
first, its hash is set on the deploy code before the deploy lowering pass
begins, and every hash read during deploy compilation yields that hash, so
the runtime panic of the accessor is unreachable on this path; when the
runtime compilation fails, the deploy pass is never entered. -/
theorem runtime_before_deploy (c : Contract)
    (runtimeCompile : RuntimeCode → Except String LlvmBuild)
    (emit : String → Except String LlvmBuild) (rb : LlvmBuild)
    (hrt : runtimeCompile c.runtime_code = Except.ok rb) :
    (c.deploy_code.set_runtime_code_hash rb.hash).runtime_code_hash =
      Except.ok rb.hash ∧
    (c.deploy_code.set_runtime_code_hash rb.hash).compile emit =
      emit rb.hash ∧
    Contract.compile c runtimeCompile emit =
      (emit rb.hash).map
        (fun db => ⟨c.path, c.identifier, db, rb⟩) ∧
    (∀ rc e, runtimeCompile rc = Except.error e →
      ∀ c' : Contract, c'.runtime_code = rc →
        Contract.compile c' runtimeCompile emit = Except.error e) := by
  have hread : (c.deploy_code.set_runtime_code_hash rb.hash).runtime_code_hash =
      Except.ok rb.hash := by
    cases hdc : c.deploy_code with
    | yul inner => simp [DeployCode.set_runtime_code_hash,
        DeployCode.runtime_code_hash]
    | evm inner => simp [DeployCode.set_runtime_code_hash,
        DeployCode.runtime_code_hash]
  have hcompile : (c.deploy_code.set_runtime_code_hash rb.hash).compile emit =
      emit rb.hash := by
    simp [DeployCode.compile, hread, Bind.bind, Except.bind]
  refine ⟨hread, hcompile, ?_, ?_⟩
  · cases hemit : emit rb.hash with
    | ok db =>
        have h2 : (c.deploy_code.set_runtime_code_hash rb.hash).compile emit =
            Except.ok db := by rw [hcompile, hemit]
        simp [Contract.compile, hrt, h2, Bind.bind, Except.bind,
          Except.map, Pure.pure, Except.pure]
    | error e =>
        have h2 : (c.deploy_code.set_runtime_code_hash rb.hash).compile emit =
            Except.error e := by rw [hcompile, hemit]
        simp [Contract.compile, hrt, h2, Bind.bind, Except.bind, Except.map]
  · intro rc e herr c' hc'
    simp [Contract.compile, hc', herr, Bind.bind, Except.bind]

/-- Witness for runtime_before_deploy at a concrete contract with fixed
oracles. -/
theorem runtime_before_deploy_witness :
    ((fun _ : RuntimeCode => (Except.ok ⟨"0xRT"⟩ : Except String LlvmBuild))
        (Contract.runtime_code ⟨"A", "A", DeployCode.yul ⟨none⟩,
          RuntimeCode.yul⟩) = Except.ok (⟨"0xRT"⟩ : LlvmBuild)) ∧
    (((Contract.deploy_code ⟨"A", "A", DeployCode.yul ⟨none⟩,
          RuntimeCode.yul⟩).set_runtime_code_hash
        (LlvmBuild.hash ⟨"0xRT"⟩)).runtime_code_hash =
      Except.ok (LlvmBuild.hash ⟨"0xRT"⟩) ∧
    ((Contract.deploy_code ⟨"A", "A", DeployCode.yul ⟨none⟩,
          RuntimeCode.yul⟩).set_runtime_code_hash
        (LlvmBuild.hash ⟨"0xRT"⟩)).compile
        (fun h => (Except.ok ⟨h⟩ : Except String LlvmBuild)) =
      (fun h => (Except.ok ⟨h⟩ : Except String LlvmBuild)) (LlvmBuild.hash ⟨"0xRT"⟩) ∧
    Contract.compile ⟨"A", "A", DeployCode.yul ⟨none⟩, RuntimeCode.yul⟩
        (fun _ => (Except.ok ⟨"0xRT"⟩ : Except String LlvmBuild))
        (fun h => (Except.ok ⟨h⟩ : Except String LlvmBuild)) =
      ((fun h => (Except.ok ⟨h⟩ : Except String LlvmBuild)) (LlvmBuild.hash ⟨"0xRT"⟩)).map
        (fun db => ⟨"A", "A", db, ⟨"0xRT"⟩⟩) ∧
    (∀ rc e, (fun _ : RuntimeCode => (Except.ok ⟨"0xRT"⟩ : Except String LlvmBuild)) rc =
        Except.error e →
      ∀ c' : Contract, c'.runtime_code = rc →
        Contract.compile c' (fun _ => (Except.ok ⟨"0xRT"⟩ : Except String LlvmBuild))
          (fun h => (Except.ok ⟨h⟩ : Except String LlvmBuild)) = Except.error e)) :=
  ⟨rfl, runtime_before_deploy
    ⟨"A", "A", DeployCode.yul ⟨none⟩, RuntimeCode.yul⟩
    (fun _ => (Except.ok ⟨"0xRT"⟩ : Except String LlvmBuild))
    (fun h => (Except.ok ⟨h⟩ : Except String LlvmBuild)) ⟨"0xRT"⟩ rfl⟩

end ContractPipeline

/-!
## Instruction lowering: literal operands and placeholder instructions

Embedded from the dispatch of Element.into_llvm in
src/compiler_solidity/src/evmla/ethereal_ir/function/block/element/mod.rs,
restricted to the instructions the property quantifies over: the PUSH
family and the other literal-requiring pushes, and the four placeholder
instructions PC, PUSHSIZE, SELFDESTRUCT and EXTCODECOPY.  The LLVM context
emission is abstracted into symbolic result values; the library resolution
callback is a parameter.  The declared input arity table (Instruction
input_size, whose module is not among the sources) is modelled from the
spec for the embedded instructions.
-/

namespace ElementLowering

/-- The embedded subset of the legacy assembly instruction names. -/
inductive InstructionName where
  | PUSH | PUSH1 | PUSH2 | PUSH3 | PUSH4 | PUSH5 | PUSH6 | PUSH7 | PUSH8
  | PUSH9 | PUSH10 | PUSH11 | PUSH12 | PUSH13 | PUSH14 | PUSH15 | PUSH16
  | PUSH17 | PUSH18 | PUSH19 | PUSH20 | PUSH21 | PUSH22 | PUSH23 | PUSH24
  | PUSH25 | PUSH26 | PUSH27 | PUSH28 | PUSH29 | PUSH30 | PUSH31 | PUSH32
  | PUSH_Tag
  | PUSH_ContractHash
  | PUSH_ContractHashSize
  | PUSHLIB
  | PUSH_Data
  | PUSHIMMUTABLE
  | ASSIGNIMMUTABLE
  | PC
  | PUSHSIZE
  | SELFDESTRUCT
  | EXTCODECOPY
deriving DecidableEq

/-- The symbolic result values pushed by the embedded instructions. -/
inductive Value where
  | pushed (v : String)
  | tagDest (v : String)
  | libAddress (addr : String)
  | contractHash (id : String)
  | headerSize (id : String)
  | immutableLoad (key : String)
  | constZero
  | runtime (n : Nat)
deriving DecidableEq

/-- The failures of instruction lowering. -/
inductive LowerError where
  | missingOperand
  | libraryNotFound (path : String)
  | stackUnderflow
deriving DecidableEq

/-- Modelled from the spec: the declared input arity of each embedded
instruction (the arity table lives in the assembly instruction name
module, which is not among the sources).  The placeholder instructions
consult the stack only through this declared arity. -/
def input_size : InstructionName → Nat
  | InstructionName.ASSIGNIMMUTABLE => 1
  | InstructionName.SELFDESTRUCT => 1
  | InstructionName.EXTCODECOPY => 4
  | _ => 0

/-- The ok_or of the instruction value: a missing literal is the fatal
MissingOperand build error (anyhow "Instruction value missing"). -/
def requireValue (value : Option String) : Except LowerError String :=
  match value with
  | some v => Except.ok v
  | none => Except.error LowerError.missingOperand

/-- pop_arguments_llvm: reads the declared number of arguments off the
symbolic stack. -/
def popArguments (stack : List Value) (n : Nat) :
    Except LowerError (List Value × List Value) :=
  if n ≤ stack.length then Except.ok (stack.take n, stack.drop n)
  else Except.error LowerError.stackUnderflow

/-- The maximal byte width of an in-place PUSH data literal (SIZE_FIELD
words of two hex digits each). -/
def sizeFieldHexDigits : Nat := 64

/-- The dispatch of Element.into_llvm over the embedded instructions:
the result is the remaining stack together with the optional produced
value. -/
def into_llvm (name : InstructionName) (value : Option String)
    (resolveLibrary : String → Option String) (stack : List Value) :
    Except LowerError (List Value × Option Value) :=
  match name with
  | InstructionName.PUSH | InstructionName.PUSH1 | InstructionName.PUSH2
  | InstructionName.PUSH3 | InstructionName.PUSH4 | InstructionName.PUSH5
  | InstructionName.PUSH6 | InstructionName.PUSH7 | InstructionName.PUSH8
  | InstructionName.PUSH9 | InstructionName.PUSH10 | InstructionName.PUSH11
  | InstructionName.PUSH12 | InstructionName.PUSH13 | InstructionName.PUSH14
  | InstructionName.PUSH15 | InstructionName.PUSH16 | InstructionName.PUSH17
  | InstructionName.PUSH18 | InstructionName.PUSH19 | InstructionName.PUSH20
  | InstructionName.PUSH21 | InstructionName.PUSH22 | InstructionName.PUSH23
  | InstructionName.PUSH24 | InstructionName.PUSH25 | InstructionName.PUSH26
  | InstructionName.PUSH27 | InstructionName.PUSH28 | InstructionName.PUSH29
  | InstructionName.PUSH30 | InstructionName.PUSH31
  | InstructionName.PUSH32 => do
      let v ← requireValue value
      Except.ok (stack, some (Value.pushed v))
  | InstructionName.PUSH_Tag => do
      let v ← requireValue value
      Except.ok (stack, some (Value.tagDest v))
  | InstructionName.PUSH_ContractHash => do
      let v ← requireValue value
      Except.ok (stack, some (Value.contractHash v))
  | InstructionName.PUSH_ContractHashSize => do
      let v ← requireValue value
      Except.ok (stack, some (Value.headerSize v))
  | InstructionName.PUSHLIB => do
      let path ← requireValue value
      match resolveLibrary path with
      | some addr => Except.ok (stack, some (Value.libAddress addr))
      | none => Except.error (LowerError.libraryNotFound path)
  | InstructionName.PUSH_Data => do
      let v ← requireValue value
      if v.length > sizeFieldHexDigits then
        Except.ok (stack, some Value.constZero)
      else
        Except.ok (stack, some (Value.pushed v))
  | InstructionName.PUSHIMMUTABLE => do
      let key ← requireValue value
      Except.ok (stack, some (Value.immutableLoad key))
  | InstructionName.ASSIGNIMMUTABLE => do
      let popped ← popArguments stack (input_size InstructionName.ASSIGNIMMUTABLE)
      let _key ← requireValue value
      Except.ok (popped.2, none)
  | InstructionName.PC => Except.ok (stack, some Value.constZero)
  | InstructionName.PUSHSIZE => Except.ok (stack, some Value.constZero)
  | InstructionName.SELFDESTRUCT => do
      let popped ← popArguments stack (input_size InstructionName.SELFDESTRUCT)
      Except.ok (popped.2, none)
  | InstructionName.EXTCODECOPY => do
      let popped ← popArguments stack (input_size InstructionName.EXTCODECOPY)
      Except.ok (popped.2, none)

/-- True of the instructions that require a literal operand. -/
def requiresLiteral : InstructionName → Bool
  | InstructionName.PUSH | InstructionName.PUSH1 | InstructionName.PUSH2
  | InstructionName.PUSH3 | InstructionName.PUSH4 | InstructionName.PUSH5
  | InstructionName.PUSH6 | InstructionName.PUSH7 | InstructionName.PUSH8
  | InstructionName.PUSH9 | InstructionName.PUSH10 | InstructionName.PUSH11
  | InstructionName.PUSH12 | InstructionName.PUSH13 | InstructionName.PUSH14
  | InstructionName.PUSH15 | InstructionName.PUSH16 | InstructionName.PUSH17
  | InstructionName.PUSH18 | InstructionName.PUSH19 | InstructionName.PUSH20
  | InstructionName.PUSH21 | InstructionName.PUSH22 | InstructionName.PUSH23
  | InstructionName.PUSH24 | InstructionName.PUSH25 | InstructionName.PUSH26
  | InstructionName.PUSH27 | InstructionName.PUSH28 | InstructionName.PUSH29
  | InstructionName.PUSH30 | InstructionName.PUSH31 | InstructionName.PUSH32
  | InstructionName.PUSH_Tag | InstructionName.PUSH_ContractHash
  | InstructionName.PUSH_ContractHashSize | InstructionName.PUSHLIB
  | InstructionName.PUSH_Data | InstructionName.PUSHIMMUTABLE
  | InstructionName.ASSIGNIMMUTABLE => true
  | _ => false

/-- C6: lowering any literal-requiring instruction with the literal absent
fails with the fatal MissingOperand error (never a silent default), while
the four placeholder instructions deterministically produce the constant
zero or no result and consume exactly their declared input arity from the
stack. -/
theorem missing_operand_and_placeholders
    (resolveLibrary : String → Option String) (stack : List Value) :
    (∀ name, requiresLiteral name = true → input_size name ≤ stack.length →
      into_llvm name none resolveLibrary stack =
        Except.error LowerError.missingOperand) ∧
    (∀ value, into_llvm InstructionName.PC value resolveLibrary stack =
      Except.ok (stack, some Value.constZero)) ∧
    (∀ value, into_llvm InstructionName.PUSHSIZE value resolveLibrary stack =
      Except.ok (stack, some Value.constZero)) ∧
    (∀ value, input_size InstructionName.SELFDESTRUCT ≤ stack.length →
      into_llvm InstructionName.SELFDESTRUCT value resolveLibrary stack =
        Except.ok (stack.drop 1, none)) ∧
    (∀ value, input_size InstructionName.EXTCODECOPY ≤ stack.length →
      into_llvm InstructionName.EXTCODECOPY value resolveLibrary stack =
        Except.ok (stack.drop 4, none)) := by
  refine ⟨?_, ?_, ?_, ?_, ?_⟩
  · intro name hreq hsz
    cases name <;>
      simp_all [into_llvm, requiresLiteral, requireValue, popArguments,
        input_size, Bind.bind, Except.bind]
  · intro value
    rfl
  · intro value
    rfl
  · intro value hsz
    simp_all [into_llvm, popArguments, input_size, Bind.bind, Except.bind]
  · intro value hsz
    simp_all [into_llvm, popArguments, input_size, Bind.bind, Except.bind]

/-- Witness for missing_operand_and_placeholders on a four-element stack. -/
theorem missing_operand_and_placeholders_witness :
    (∀ name, requiresLiteral name = true → input_size name ≤
        ([Value.runtime 0, Value.runtime 1, Value.runtime 2,
          Value.runtime 3] : List Value).length →
      into_llvm name none (fun _ => none)
          [Value.runtime 0, Value.runtime 1, Value.runtime 2,
            Value.runtime 3] =
        Except.error LowerError.missingOperand) ∧
    (∀ value, into_llvm InstructionName.PC value (fun _ => none)
        [Value.runtime 0, Value.runtime 1, Value.runtime 2,
          Value.runtime 3] =
      Except.ok ([Value.runtime 0, Value.runtime 1, Value.runtime 2,
        Value.runtime 3], some Value.constZero)) ∧
    (∀ value, into_llvm InstructionName.PUSHSIZE value (fun _ => none)
        [Value.runtime 0, Value.runtime 1, Value.runtime 2,
          Value.runtime 3] =
      Except.ok ([Value.runtime 0, Value.runtime 1, Value.runtime 2,
        Value.runtime 3], some Value.constZero)) ∧
    (∀ value, input_size InstructionName.SELFDESTRUCT ≤
        ([Value.runtime 0, Value.runtime 1, Value.runtime 2,
          Value.runtime 3] : List Value).length →
      into_llvm InstructionName.SELFDESTRUCT value (fun _ => none)
          [Value.runtime 0, Value.runtime 1, Value.runtime 2,
            Value.runtime 3] =
        Except.ok (([Value.runtime 0, Value.runtime 1, Value.runtime 2,
          Value.runtime 3] : List Value).drop 1, none)) ∧
    (∀ value, input_size InstructionName.EXTCODECOPY ≤
        ([Value.runtime 0, Value.runtime 1, Value.runtime 2,
          Value.runtime 3] : List Value).length →
      into_llvm InstructionName.EXTCODECOPY value (fun _ => none)
          [Value.runtime 0, Value.runtime 1, Value.runtime 2,
            Value.runtime 3] =
        Except.ok (([Value.runtime 0, Value.runtime 1, Value.runtime 2,
          Value.runtime 3] : List Value).drop 4, none)) ∧
    into_llvm InstructionName.PUSH1 none (fun _ => none)
        [Value.runtime 0, Value.runtime 1, Value.runtime 2,
          Value.runtime 3] =
      Except.error LowerError.missingOperand ∧
    into_llvm InstructionName.EXTCODECOPY (some "00") (fun _ => none)
        [Value.runtime 0, Value.runtime 1, Value.runtime 2,
          Value.runtime 3] =
      Except.ok ([], none) :=
  ⟨(missing_operand_and_placeholders (fun _ => none)
      [Value.runtime 0, Value.runtime 1, Value.runtime 2,
        Value.runtime 3]).1,
   (missing_operand_and_placeholders (fun _ => none)
      [Value.runtime 0, Value.runtime 1, Value.runtime 2,
        Value.runtime 3]).2.1,
   (missing_operand_and_placeholders (fun _ => none)
      [Value.runtime 0, Value.runtime 1, Value.runtime 2,
        Value.runtime 3]).2.2.1,
   (missing_operand_and_placeholders (fun _ => none)
      [Value.runtime 0, Value.runtime 1, Value.runtime 2,
        Value.runtime 3]).2.2.2.1,
   (missing_operand_and_placeholders (fun _ => none)
      [Value.runtime 0, Value.runtime 1, Value.runtime 2,
        Value.runtime 3]).2.2.2.2,
   (missing_operand_and_placeholders (fun _ => none)
      [Value.runtime 0, Value.runtime 1, Value.runtime 2,
        Value.runtime 3]).1 InstructionName.PUSH1 (by decide) (by decide),
   (missing_operand_and_placeholders (fun _ => none)
      [Value.runtime 0, Value.runtime 1, Value.runtime 2,
        Value.runtime 3]).2.2.2.2 (some "00") (by decide)⟩

end ElementLowering


/-!
## Log-topic argument reversal

Embedded from
src/compiler_solidity/src/yul/parser/statement/expression/function_call/mod.rs:
pop_arguments_llvm_log and the Log0 to Log4 arms of FunctionCall::into_llvm.
Expression evaluation (Expression::into_llvm) is abstracted into a stateful
oracle; at every call site the function drains exactly as many arguments as
the call carries, so the model evaluates the whole argument list.  The
in-place reversal of the slice starting at index 2 before evaluation, and of
the produced values after evaluation, is the reverseTopics transformation.
-/

namespace YulFunctionCall

/-- The in-place reversal of the topic arguments: the data arguments at
positions 0 and 1 stay, the elements from position 2 on are reversed. -/
def reverseTopics {α : Type} (l : List α) : List α :=
  l.take 2 ++ (l.drop 2).reverse

theorem reverseTopics_invol {α : Type} (l : List α) :
    reverseTopics (reverseTopics l) = l := by
  match l with
  | [] => rfl
  | [a] => rfl
  | a :: b :: t => simp [reverseTopics]

theorem reverseTopics_getElem {α : Type} (l : List α) (i : Nat)
    (hi : i < l.length) :
    (reverseTopics l)[i]? = l[if i < 2 then i else l.length + 1 - i]? := by
  by_cases h2 : i < 2
  · rw [if_pos h2]
    unfold reverseTopics
    rw [List.getElem?_append, if_pos (by simp; omega)]
    simp [List.getElem?_take, h2]
  · rw [if_neg h2]
    unfold reverseTopics
    rw [List.getElem?_append, if_neg (by simp; omega)]
    have hlen : (l.take 2).length = 2 := by simp; omega
    rw [hlen]
    rw [List.getElem?_reverse (by simp; omega)]
    rw [List.getElem?_drop]
    congr 1
    simp
    omega

section
variable {Expr Value State Err : Type}

/-- Evaluation of a list of argument expressions left to right, threading
the context state. -/
def evalArguments (eval : Expr → State → Except Err (State × Value)) :
    List Expr → State → Except Err (State × List Value)
  | [], s => Except.ok (s, [])
  | e :: es, s => do
      let r ← eval e s
      let rs ← evalArguments eval es r.1
      Except.ok (rs.1, r.2 :: rs.2)

/-- FunctionCall::pop_arguments_llvm_log: reverses the arguments from
position 2 on, evaluates the arguments in order, and reverses the produced
values from position 2 on back. -/
def pop_arguments_llvm_log (eval : Expr → State → Except Err (State × Value))
    (args : List Expr) (s : State) : Except Err (State × List Value) := do
  let r ← evalArguments eval (reverseTopics args) s
  Except.ok (r.1, reverseTopics r.2)

theorem evalArguments_pure (eval : Expr → State → Except Err (State × Value))
    (pureEval : Expr → Value)
    (heval : ∀ e st, eval e st = Except.ok (st, pureEval e)) :
    ∀ (l : List Expr) (s : State),
      evalArguments eval l s = Except.ok (s, l.map pureEval) := by
  intro l
  induction l with
  | nil => intro s; rfl
  | cons e es ih =>
      intro s
      simp [evalArguments, heval, ih, Bind.bind, Except.bind]

theorem evalArguments_pointwise (eval : Expr → State → Except Err (State × Value)) :
    ∀ (l : List Expr) (s s' : State) (ws : List Value),
      evalArguments eval l s = Except.ok (s', ws) →
      ws.length = l.length ∧
      ∀ (i : Nat) (e : Expr) (w : Value), l[i]? = some e → ws[i]? = some w →
        ∃ sa sb, eval e sa = Except.ok (sb, w) := by
  intro l
  induction l with
  | nil =>
      intro s s' ws h
      simp [evalArguments] at h
      obtain ⟨h1, h2⟩ := h
      subst h1; subst h2
      exact ⟨rfl, by intro i e w he hw; simp at he⟩
  | cons e es ih =>
      intro s s' ws h
      cases he : eval e s with
      | error err =>
          simp only [evalArguments, Bind.bind, Except.bind, he] at h
          cases h
      | ok r =>
          cases hes : evalArguments eval es r.1 with
          | error err =>
              simp only [evalArguments, Bind.bind, Except.bind, he, hes] at h
              cases h
          | ok rs =>
              simp only [evalArguments, Bind.bind, Except.bind, he, hes] at h
              simp at h
              obtain ⟨h1, h2⟩ := h
              obtain ⟨hlen, hpt⟩ := ih r.1 rs.1 rs.2 (by rw [hes])
              constructor
              · rw [← h2]
                simp [hlen]
              · intro i e' w he' hw
                cases i with
                | zero =>
                    simp at he'
                    rw [← h2] at hw
                    simp at hw
                    subst he'
                    subst hw
                    exact ⟨s, r.1, by rw [he]⟩
                | succ n =>
                    simp at he'
                    rw [← h2] at hw
                    simp at hw
                    exact hpt n e' w he' hw
end

theorem reverseTopics_map {α β : Type} (f : α → β) (l : List α) :
    reverseTopics (l.map f) = (reverseTopics l).map f := by
  simp [reverseTopics, List.map_take, List.map_drop]

theorem reverseTopics_length {α : Type} (l : List α) :
    (reverseTopics l).length = l.length := by
  simp [reverseTopics]
  omega

section
variable {Expr Value State Err : Type}

/-- C7: the reversal applied before evaluation and again after is the
identity on the topic argument list, so the emitted log call receives the
topics in their original source order: with a state-independent evaluator
the produced values are exactly the argument list mapped in order, and in
general position i of the produced values is an evaluation of argument i. -/
theorem log_topics_original_order
    (eval : Expr → State → Except Err (State × Value))
    (args : List Expr) (s : State) :
    reverseTopics (reverseTopics args) = args ∧
    (∀ pureEval : Expr → Value,
      (∀ e st, eval e st = Except.ok (st, pureEval e)) →
      pop_arguments_llvm_log eval args s =
        Except.ok (s, args.map pureEval)) ∧
    (∀ (s' : State) (vs : List Value),
      pop_arguments_llvm_log eval args s = Except.ok (s', vs) →
      vs.length = args.length ∧
      ∀ (i : Nat) (e : Expr) (v : Value),
        args[i]? = some e → vs[i]? = some v →
        ∃ sa sb, eval e sa = Except.ok (sb, v)) := by
  refine ⟨reverseTopics_invol args, ?_, ?_⟩
  · intro pureEval heval
    simp only [pop_arguments_llvm_log,
      evalArguments_pure eval pureEval heval, Bind.bind, Except.bind]
    rw [reverseTopics_map, reverseTopics_invol]
  · intro s' vs hpop
    cases her : evalArguments eval (reverseTopics args) s with
    | error err =>
        simp only [pop_arguments_llvm_log, her, Bind.bind, Except.bind] at hpop
        cases hpop
    | ok r =>
        simp only [pop_arguments_llvm_log, her, Bind.bind, Except.bind] at hpop
        simp at hpop
        obtain ⟨h1, h2⟩ := hpop
        obtain ⟨hlen, hpt⟩ := evalArguments_pointwise eval
          (reverseTopics args) s r.1 r.2 (by rw [her])
        have hrlen : r.2.length = args.length := by
          rw [hlen, reverseTopics_length]
        constructor
        · rw [← h2, reverseTopics_length, hrlen]
        · intro i e v he hv
          have hi : i < args.length := by
            have := List.getElem?_eq_some.mp he
            exact this.1
          have hsig : (if i < 2 then i else args.length + 1 - i) <
              args.length := by
            by_cases h2i : i < 2 <;> simp [h2i] <;> omega
          have hsig2 : ∀ j, j < args.length →
              (if (if j < 2 then j else args.length + 1 - j) < 2 then
                (if j < 2 then j else args.length + 1 - j)
               else args.length + 1 -
                 (if j < 2 then j else args.length + 1 - j)) = j := by
            intro j hj
            by_cases h2j : j < 2
            · simp [h2j]
            · rw [if_neg h2j, if_neg (by omega)]
              omega
          have hargs : (reverseTopics args)[if i < 2 then i
              else args.length + 1 - i]? = some e := by
            rw [reverseTopics_getElem args _ hsig, hsig2 i hi]
            exact he
          have hvs : r.2[if i < 2 then i else args.length + 1 - i]? =
              some v := by
            have := reverseTopics_getElem r.2 i (by omega)
            rw [← h2] at hv
            rw [this] at hv
            rw [hrlen] at hv
            exact hv
          exact hpt _ e v hargs hvs
end

/-- Witness for log_topics_original_order with numeric expressions, the
evaluator adding 100, and the LOG2-shaped argument list
[offset, size, t0, t1]. -/
theorem log_topics_original_order_witness :
    (reverseTopics (reverseTopics [0, 1, 2, 3]) = [0, 1, 2, 3] ∧
      (∀ pureEval : Nat → Nat,
        (∀ (e : Nat) (st : Unit),
          (fun (e : Nat) (_ : Unit) =>
            (Except.ok ((), e + 100) : Except Unit (Unit × Nat))) e st =
            Except.ok (st, pureEval e)) →
        pop_arguments_llvm_log
          (fun (e : Nat) (_ : Unit) =>
            (Except.ok ((), e + 100) : Except Unit (Unit × Nat)))
          [0, 1, 2, 3] () =
          Except.ok ((), ([0, 1, 2, 3] : List Nat).map pureEval)) ∧
      (∀ (s' : Unit) (vs : List Nat),
        pop_arguments_llvm_log
          (fun (e : Nat) (_ : Unit) =>
            (Except.ok ((), e + 100) : Except Unit (Unit × Nat)))
          [0, 1, 2, 3] () = Except.ok (s', vs) →
        vs.length = ([0, 1, 2, 3] : List Nat).length ∧
        ∀ (i : Nat) (e : Nat) (v : Nat),
          ([0, 1, 2, 3] : List Nat)[i]? = some e → vs[i]? = some v →
          ∃ sa sb, (fun (e : Nat) (_ : Unit) =>
            (Except.ok ((), e + 100) : Except Unit (Unit × Nat))) e sa =
            Except.ok (sb, v))) ∧
    pop_arguments_llvm_log
      (fun (e : Nat) (_ : Unit) =>
        (Except.ok ((), e + 100) : Except Unit (Unit × Nat)))
      [0, 1, 2, 3] () = Except.ok ((), [100, 101, 102, 103]) :=
  ⟨log_topics_original_order
    (fun (e : Nat) (_ : Unit) =>
      (Except.ok ((), e + 100) : Except Unit (Unit × Nat))) [0, 1, 2, 3] (),
   (log_topics_original_order
      (fun (e : Nat) (_ : Unit) =>
        (Except.ok ((), e + 100) : Except Unit (Unit × Nat)))
      [0, 1, 2, 3] ()).2.1 (fun e => e + 100) (fun _ _ => rfl)⟩

end YulFunctionCall


/-!
## Ethereal IR merge rule

Modelled from the spec: the function assembler that walks the block graph,
records the entry stack fingerprint of every visited block and rejects any
control-flow merge whose predecessors disagree on the fingerprint
(src/compiler_solidity/src/evmla/ethereal_ir/function/block/element/mod.rs
passes the stack fingerprint of each jump to the jump lowering, but the
fingerprint bookkeeping of the walk itself lives in the ethereal IR
function module and the jump module, which are not among the sources; the
walk below follows section 4.3 of the specification).
-/

namespace EtherealIr

/-- Modelled from the spec: the stack fingerprint capturing height and the
per-slot known-vs-unknown element identity. -/
abbrev Fingerprint := List (Option String)

/-- Modelled from the spec: a basic block of the Ethereal IR control-flow
graph, given by its outgoing edges: for the fingerprint at block entry, the
successor tags together with the entry fingerprint each edge imposes at its
target (computed from the incoming stack state). -/
structure EIRBlock where
  succs : Fingerprint → List (Nat × Fingerprint)

/-- Modelled from the spec: the fatal control-flow consistency errors of
the function assembler. -/
inductive EIRError where
  | irreconcilableStack (tag : Nat) (expected found : Fingerprint)
  | unknownBlock (tag : Nat)

/-- Modelled from the spec: the block walk of the function assembler
(EtherealIR::new and Function::new, whose module is not among the
sources).  Worklist items carry the required entry fingerprint; a block
already visited with an identical fingerprint is not re-emitted, a block
reached with a different fingerprint is the fatal IrreconcilableStack
error, and no merge unification is attempted.  The remaining list holds the
not-yet-visited block tags. -/
def walk (blocks : Nat → EIRBlock) :
    List Nat → List (Nat × Fingerprint) → List (Nat × Fingerprint) →
    List Nat → Except EIRError (List Nat)
  | _, [], _, emitted => Except.ok emitted.reverse
  | remaining, (t, fp) :: rest, visited, emitted =>
      match visited.find? (fun p => p.1 == t) with
      | some p =>
          if p.2 = fp then walk blocks remaining rest visited emitted
          else Except.error (EIRError.irreconcilableStack t p.2 fp)
      | none =>
          if _hmem : t ∈ remaining then
            walk blocks (remaining.erase t)
              ((blocks t).succs fp ++ rest) ((t, fp) :: visited)
              (t :: emitted)
          else Except.error (EIRError.unknownBlock t)
termination_by remaining worklist _ _ => (remaining.length, worklist.length)
decreasing_by
  · apply Prod.Lex.right
    simp
  · apply Prod.Lex.left
    have := List.length_erase_add_one _hmem
    omega

/-- The walk of a single successor-free entry block emits exactly that
block. -/
theorem walk_single_block : walk (fun _ => ⟨fun _ => []⟩) [0] [(0, [])] [] [] =
    Except.ok [0] := by
  simp [walk]

/-- Modelled from the spec: a block entry (tag, fingerprint) is reachable
when a chain of successor edges leads to it from the entry block, which
starts with the empty stack. -/
def Reach (blocks : Nat → EIRBlock) (entryTag : Nat)
    (t : Nat) (fp : Fingerprint) : Prop :=
  Relation.ReflTransGen
    (fun p q : Nat × Fingerprint => q ∈ (blocks p.1).succs p.2)
    (entryTag, []) (t, fp)

theorem walk_ok_closed (blocks : Nat → EIRBlock) :
    ∀ (remaining : List Nat) (worklist visited : List (Nat × Fingerprint))
      (emitted : List Nat),
    ∀ out : List Nat,
    walk blocks remaining worklist visited emitted = Except.ok out →
    (∀ t fp fp', (t, fp) ∈ visited → (t, fp') ∈ visited → fp = fp') →
    (∀ t fp, (t, fp) ∈ visited →
      ∀ p' ∈ (blocks t).succs fp, p' ∈ visited ∨ p' ∈ worklist) →
    ∃ V : List (Nat × Fingerprint),
      (∀ p ∈ visited, p ∈ V) ∧ (∀ p ∈ worklist, p ∈ V) ∧
      (∀ t fp, (t, fp) ∈ V → ∀ p' ∈ (blocks t).succs fp, p' ∈ V) ∧
      (∀ t fp fp', (t, fp) ∈ V → (t, fp') ∈ V → fp = fp') := by
  intro remaining worklist visited emitted
  induction remaining, worklist, visited, emitted using walk.induct blocks with
  | case1 remaining visited emitted =>
      intro out _ h1 h2
      refine ⟨visited, fun p hp => hp, by simp, ?_, h1⟩
      intro t fp hv p' hp'
      rcases h2 t fp hv p' hp' with h | h
      · exact h
      · simp at h
  | case2 remaining t rest visited emitted p hfind ih =>
      intro out hwalk h1 h2
      have hpmem : p ∈ visited := List.mem_of_find?_eq_some hfind
      have hpt : p.1 = t := by
        have := List.find?_some hfind
        simpa using this
      have hpv : (t, p.2) ∈ visited := by
        rw [← hpt]
        exact hpmem
      have hred : walk blocks remaining ((t, p.2) :: rest) visited emitted =
          walk blocks remaining rest visited emitted := by
        simp [walk, hfind]
      rw [hred] at hwalk
      have hpre : ∀ t' fp', (t', fp') ∈ visited →
          ∀ q ∈ (blocks t').succs fp', q ∈ visited ∨ q ∈ rest := by
        intro t' fp' hv q hq
        rcases h2 t' fp' hv q hq with h | h
        · exact Or.inl h
        · rcases List.mem_cons.mp h with h | h
          · subst h
            exact Or.inl hpv
          · exact Or.inr h
      obtain ⟨V, hvV, hwV, hcl, hfun⟩ := ih out hwalk h1 hpre
      refine ⟨V, hvV, ?_, hcl, hfun⟩
      intro q hq
      rcases List.mem_cons.mp hq with h | h
      · subst h
        exact hvV _ hpv
      · exact hwV _ h
  | case3 remaining t fp rest visited emitted p hfind hne =>
      intro out hwalk h1 h2
      exfalso
      have : walk blocks remaining ((t, fp) :: rest) visited emitted =
          Except.error (EIRError.irreconcilableStack t p.2 fp) := by
        simp [walk, hfind, hne]
      rw [this] at hwalk
      cases hwalk
  | case4 remaining t fp rest visited emitted hfind hmem ih =>
      intro out hwalk h1 h2
      have hnotv : ∀ fp', (t, fp') ∉ visited := by
        intro fp' hv
        have := List.find?_eq_none.mp hfind _ hv
        simp at this
      have hred : walk blocks remaining ((t, fp) :: rest) visited emitted =
          walk blocks (remaining.erase t) ((blocks t).succs fp ++ rest)
            ((t, fp) :: visited) (t :: emitted) := by
        simp [walk, hfind, hmem]
      rw [hred] at hwalk
      have hp1 : ∀ t' f f', (t', f) ∈ (t, fp) :: visited →
          (t', f') ∈ (t, fp) :: visited → f = f' := by
        intro t' f f' hv hv'
        rcases List.mem_cons.mp hv with h | h <;>
          rcases List.mem_cons.mp hv' with h' | h'
        · rw [Prod.mk.injEq] at h h'
          rw [h.2, h'.2]
        · rw [Prod.mk.injEq] at h
          exact absurd (h.1 ▸ h') (hnotv _)
        · rw [Prod.mk.injEq] at h'
          exact absurd (h'.1 ▸ h) (hnotv _)
        · exact h1 t' f f' h h'
      have hp2 : ∀ t' f, (t', f) ∈ (t, fp) :: visited →
          ∀ q ∈ (blocks t').succs f,
            q ∈ (t, fp) :: visited ∨ q ∈ (blocks t).succs fp ++ rest := by
        intro t' f hv q hq
        rcases List.mem_cons.mp hv with h | h
        · rw [Prod.mk.injEq] at h
          obtain ⟨ht, hf⟩ := h
          subst ht
          subst hf
          exact Or.inr (List.mem_append_left _ hq)
        · rcases h2 t' f h q hq with hh | hh
          · exact Or.inl (List.mem_cons_of_mem _ hh)
          · rcases List.mem_cons.mp hh with hh' | hh'
            · subst hh'
              exact Or.inl (List.mem_cons_self _ _)
            · exact Or.inr (List.mem_append_right _ hh')
      obtain ⟨V, hvV, hwV, hcl, hfun⟩ := ih out hwalk hp1 hp2
      refine ⟨V, ?_, ?_, hcl, hfun⟩
      · intro q hq
        exact hvV _ (List.mem_cons_of_mem _ hq)
      · intro q hq
        rcases List.mem_cons.mp hq with h | h
        · subst h
          exact hvV _ (List.mem_cons_self _ _)
        · exact hwV _ (List.mem_append_right _ h)
  | case5 remaining t fp rest visited emitted hfind hmem =>
      intro out hwalk h1 h2
      exfalso
      have : walk blocks remaining ((t, fp) :: rest) visited emitted =
          Except.error (EIRError.unknownBlock t) := by
        simp [walk, hfind, hmem]
      rw [this] at hwalk
      cases hwalk

theorem walk_no_unknown (blocks : Nat → EIRBlock) (tags0 : List Nat)
    (hclosed : ∀ t fp, ∀ p' ∈ (blocks t).succs fp, p'.1 ∈ tags0) :
    ∀ (remaining : List Nat) (worklist visited : List (Nat × Fingerprint))
      (emitted : List Nat),
    (∀ p ∈ worklist, p.1 ∈ tags0) →
    (∀ tag ∈ tags0, tag ∈ remaining ∨ ∃ fp, (tag, fp) ∈ visited) →
    ∀ t, walk blocks remaining worklist visited emitted ≠
      Except.error (EIRError.unknownBlock t) := by
  intro remaining worklist visited emitted
  induction remaining, worklist, visited, emitted using walk.induct blocks with
  | case1 remaining visited emitted =>
      intro hw hcov t
      simp [walk]
  | case2 remaining t rest visited emitted p hfind ih =>
      intro hw hcov t'
      have hred : walk blocks remaining ((t, p.2) :: rest) visited emitted =
          walk blocks remaining rest visited emitted := by
        simp [walk, hfind]
      rw [hred]
      exact ih (fun q hq => hw q (List.mem_cons_of_mem _ hq)) hcov t'
  | case3 remaining t fp rest visited emitted p hfind hne =>
      intro hw hcov t'
      have hred : walk blocks remaining ((t, fp) :: rest) visited emitted =
          Except.error (EIRError.irreconcilableStack t p.2 fp) := by
        simp [walk, hfind, hne]
      rw [hred]
      intro hcontra
      cases hcontra
  | case4 remaining t fp rest visited emitted hfind hmem ih =>
      intro hw hcov t'
      have hred : walk blocks remaining ((t, fp) :: rest) visited emitted =
          walk blocks (remaining.erase t) ((blocks t).succs fp ++ rest)
            ((t, fp) :: visited) (t :: emitted) := by
        simp [walk, hfind, hmem]
      rw [hred]
      apply ih
      · intro q hq
        rcases List.mem_append.mp hq with h | h
        · exact hclosed t fp q h
        · exact hw q (List.mem_cons_of_mem _ h)
      · intro tag htag
        rcases hcov tag htag with h | h
        · by_cases he : tag = t
          · subst he
            exact Or.inr ⟨fp, List.mem_cons_self _ _⟩
          · exact Or.inl ((List.mem_erase_of_ne he).mpr h)
        · obtain ⟨fp', hfp'⟩ := h
          exact Or.inr ⟨fp', List.mem_cons_of_mem _ hfp'⟩
  | case5 remaining t fp rest visited emitted hfind hmem =>
      intro hw hcov t'
      exfalso
      have htags : t ∈ tags0 := hw (t, fp) (List.mem_cons_self _ _)
      rcases hcov t htags with h | h
      · exact hmem h
      · obtain ⟨fp', hfp'⟩ := h
        have := List.find?_eq_none.mp hfind _ hfp'
        simp at this

/-- Modelled from the spec: assembling the Ethereal IR of a contract walks
the block graph from the designated entry block with an empty stack. -/
def assemble (blocks : Nat → EIRBlock) (tags : List Nat) (entryTag : Nat) :
    Except EIRError (List Nat) :=
  walk blocks tags [(entryTag, [])] [] []

/-- C1: whenever some tag is reachable from two predecessors that impose
different entry stack fingerprints, assembling the contract fails with the
IrreconcilableStack error and produces no lowered output; no merge
unification is attempted. -/
theorem irreconcilable_stack_rejects_merge_mismatch
    (blocks : Nat → EIRBlock) (tags : List Nat) (entryTag : Nat)
    (hentry : entryTag ∈ tags)
    (hclosed : ∀ t fp, ∀ p' ∈ (blocks t).succs fp, p'.1 ∈ tags)
    (t : Nat) (fp1 fp2 : Fingerprint)
    (h1 : Reach blocks entryTag t fp1) (h2 : Reach blocks entryTag t fp2)
    (hne : fp1 ≠ fp2) :
    ∃ t' expected found, assemble blocks tags entryTag =
      Except.error (EIRError.irreconcilableStack t' expected found) := by
  cases hres : assemble blocks tags entryTag with
  | ok out =>
      exfalso
      obtain ⟨V, hvV, hwV, hcl, hfun⟩ := walk_ok_closed blocks tags
        [(entryTag, [])] [] [] out hres (by simp) (by simp)
      have hin : ∀ q : Nat × Fingerprint,
          Relation.ReflTransGen
            (fun p q : Nat × Fingerprint => q ∈ (blocks p.1).succs p.2)
            (entryTag, ([] : Fingerprint)) q → q ∈ V := by
        intro q hq
        induction hq with
        | refl => exact hwV _ (by simp)
        | tail hsteps hstep ih =>
            rename_i b c
            exact hcl b.1 b.2 (by simpa using ih) c hstep
      exact hne (hfun t fp1 fp2 (hin _ h1) (hin _ h2))
  | error err =>
      cases err with
      | irreconcilableStack a b c => exact ⟨a, b, c, rfl⟩
      | unknownBlock tt =>
          exfalso
          exact walk_no_unknown blocks tags hclosed tags [(entryTag, [])]
            [] [] (by simpa using hentry) (fun tag htag => Or.inl htag)
            tt hres

/-- A three-block graph in which tag 2 is reached from tag 0 with
fingerprint [some a] and from tag 1 with fingerprint [none]. -/
def conflictBlocks : Nat → EIRBlock :=
  fun t =>
    match t with
    | 0 => ⟨fun _ => [(1, [some "a"]), (2, [some "a"])]⟩
    | 1 => ⟨fun _ => [(2, [none])]⟩
    | _ => ⟨fun _ => []⟩

/-- Witness for irreconcilable_stack_rejects_merge_mismatch on the
three-block conflicting graph. -/
theorem irreconcilable_stack_rejects_merge_mismatch_witness :
    (0 ∈ [0, 1, 2] ∧
      (∀ t fp, ∀ p' ∈ (conflictBlocks t).succs fp, p'.1 ∈ [0, 1, 2]) ∧
      Reach conflictBlocks 0 2 [some "a"] ∧
      Reach conflictBlocks 0 2 [none] ∧
      ([some "a"] : Fingerprint) ≠ [none]) ∧
    (∃ t' expected found, assemble conflictBlocks [0, 1, 2] 0 =
      Except.error (EIRError.irreconcilableStack t' expected found)) := by
  have hclosed : ∀ t fp, ∀ p' ∈ (conflictBlocks t).succs fp,
      p'.1 ∈ [0, 1, 2] := by
    intro t fp p' hp'
    match t with
    | 0 => simp [conflictBlocks] at hp'; rcases hp' with h | h <;> simp [h]
    | 1 => simp [conflictBlocks] at hp'; simp [hp']
    | (n + 2) => simp [conflictBlocks] at hp'
  have hr1 : Reach conflictBlocks 0 2 [some "a"] :=
    Relation.ReflTransGen.single (by simp [conflictBlocks])
  have hr2 : Reach conflictBlocks 0 2 [none] :=
    Relation.ReflTransGen.tail
      (Relation.ReflTransGen.single (show ((1 : Nat), [some "a"]) ∈
        (conflictBlocks 0).succs [] by simp [conflictBlocks]))
      (by simp [conflictBlocks])
  refine ⟨⟨by simp, hclosed, hr1, hr2, by simp⟩, ?_⟩
  exact irreconcilable_stack_rejects_merge_mismatch conflictBlocks [0, 1, 2] 0
    (by simp) hclosed 2 [some "a"] [none] hr1 hr2 (by simp)

end EtherealIr

/-!
## Condition-variable wait of the scheduler

Embedded from the Waiter branch of Project::compile and the terminal-store
branch of the Source path in src/compiler_solidity/src/project/mod.rs.  The
waiter thread has found the slot in state Waiter, re-inserted it and
dropped the table lock; it then blocks on the condition variable of the
handle (waiter.1.wait on the freshly locked waiter.0, a mutex the owner
never acquires).  The owner thread stores the terminal state under the
table lock and then calls notify_all.  Condvar semantics: notify_all wakes
exactly the threads blocked in wait at that moment, and a notification
finding no blocked thread is lost; wait blocks until such a notification
arrives.  The interleaving of the two threads is explicit: a schedule picks
which thread steps next.
-/

namespace CondvarModel

/-- The slot contents relevant to the wait: still Waiter, or the terminal
state the owner stores. -/
inductive SlotState where
  | waiter
  | build
deriving DecidableEq

/-- The remaining actions of the owner thread: store the terminal state
under the table lock, then notify all waiters. -/
inductive OwnerStep where
  | storeTerminal
  | notifyAll
deriving DecidableEq

/-- The remaining actions of the waiter thread after dropping the table
lock: enter the condition wait, and, once woken, return from compile. -/
inductive WaiterStep where
  | beginWait
  | resume
deriving DecidableEq

/-- A configuration of the two threads and the shared state. -/
structure Config where
  slot : SlotState
  ownerProg : List OwnerStep
  waiterProg : List WaiterStep
  waiting : Bool
  woken : Bool
deriving DecidableEq

/-- One interleaving step: true steps the owner, false steps the waiter.
notify_all wakes the waiter only if it is already blocked in wait; the
resume of the waiter is enabled only once it has been woken. -/
def step (c : Config) (who : Bool) : Option Config :=
  if who then
    match c.ownerProg with
    | [] => none
    | OwnerStep.storeTerminal :: rest =>
        some { c with slot := SlotState.build, ownerProg := rest }
    | OwnerStep.notifyAll :: rest =>
        some { c with
                 ownerProg := rest
                 waiting := false
                 woken := c.woken || c.waiting }
  else
    match c.waiterProg with
    | [] => none
    | WaiterStep.beginWait :: rest =>
        some { c with waiterProg := rest, waiting := true }
    | WaiterStep.resume :: rest =>
        if c.woken then
          some { c with waiterProg := rest, waiting := false }
        else none

/-- Running a schedule of thread choices from a configuration. -/
def run (c : Config) : List Bool → Option Config
  | [] => some c
  | who :: rest => (step c who).bind (fun c' => run c' rest)

/-- The initial configuration: the slot holds the Waiter, the owner is
about to store the terminal state, the waiter has dropped the table lock
and is about to enter the wait. -/
def initConfig : Config :=
  ⟨SlotState.waiter, [OwnerStep.storeTerminal, OwnerStep.notifyAll],
   [WaiterStep.beginWait, WaiterStep.resume], false, false⟩

/-- C9 refutation: under the schedule in which the owner stores the
terminal state and issues notify_all between the waiter releasing the table
lock and entering the condition wait, the notification is lost: the system
reaches a configuration in which the slot holds the terminal state and the
owner is done, yet the waiter is blocked in the wait forever (no step of
either thread is enabled), so the waiter does not resume when the owner
transitions the slot. -/
theorem lost_wakeup_execution :
    run initConfig [true, true, false] =
      some ⟨SlotState.build, [], [WaiterStep.resume], true, false⟩ ∧
    (∀ who, step ⟨SlotState.build, [], [WaiterStep.resume], true, false⟩
      who = none) ∧
    (⟨SlotState.build, [], [WaiterStep.resume], true, false⟩ :
      Config).waiterProg ≠ [] := by
  refine ⟨by decide, ?_, by decide⟩
  intro who
  cases who <;> decide

end CondvarModel
